import Mathlib

/-!
Shallow embedding of the Lab_3 repository: a cyclic "Person" friendship
graph with symmetric `add_friend`, a depth-first serializer that flattens
the reachable graph into a list of flat records, and a two-phase
deserializer that rebuilds the graph from those records.

The repository has three presentation variants of the same two algorithms
(`lab3_oop_encapsulated.py`, `lab3_oop_direct_access.py`,
`lab3_functional.py`).  Objects are identified by their unique `id`
string, so the heap of `Person` objects (OOP variants) and the
`persons_dict` (functional variant) are both embedded as an
insertion-ordered association list from id to person data, with Python
`dict` get/set semantics.  Friendship edges are stored as lists of ids,
exactly as they appear on the wire; an OOP `Person` reference is
represented by the id of the referenced object (object identity and id
coincide because ids are unique).

The `datetime` type and its `isoformat`/`fromisoformat` pair are external
to the repository; they are modelled by a type parameter `D` together
with encode/decode functions `iso : D → String` and
`fromiso : String → D`.
-/

namespace Lab3

/-- A `Person`: `id`, `name`, `born_in` and the list of friend ids.
Embeds `Person` of `lab3_oop_encapsulated.py` (fields `_id`, `_name`,
`_born_in`, `_friends`), `PersonDirectAccess`, and the functional
`PersonData` dictionaries of `lab3_functional.py`. -/
structure Person (D : Type) where
  id : String
  name : String
  born_in : D
  friends : List String
deriving DecidableEq, Repr

/-- The wire-level record produced for one person: `born_in` is already
text-encoded (`isoformat`).  Matches `Person.to_dict` and the
`obj_copy` built in `serialize_functional`. -/
structure FlatRecord where
  id : String
  name : String
  born_in : String
  friends : List String
deriving DecidableEq, Repr

/-- The serialized container of `serialize_functional`: an explicit
`root_id` plus the ordered list of flat records. -/
structure Container where
  root_id : String
  objects : List FlatRecord
deriving DecidableEq, Repr

/-- A Python `dict` from id to person, with insertion order.  Used for
`persons_dict`, `obj_cache` and the object heap of the OOP variants. -/
abbrev Graph (D : Type) := List (String × Person D)

/-- Python `d[k]` as an option: first entry with the given key. -/
def dictGet (k : String) : Graph D → Option (Person D)
  | [] => none
  | kv :: rest => if kv.1 = k then some kv.2 else dictGet k rest

/-- Python `d[k] = v`: replace the value in place if the key exists,
otherwise append a new entry at the end. -/
def dictSet (k : String) (v : Person D) : Graph D → Graph D
  | [] => [(k, v)]
  | kv :: rest => if kv.1 = k then (k, v) :: rest else kv :: dictSet k v rest

/-- The keys of the dictionary, in insertion order. -/
def keys (g : Graph D) : List String := g.map (fun kv => kv.1)

/-- The friends list of the person stored at id `k` (empty if absent). -/
def friendsOf (g : Graph D) (k : String) : List String :=
  ((dictGet k g).map Person.friends).getD []

theorem dictGet_dictSet (g : Graph D) (k j : String) (v : Person D) :
    dictGet j (dictSet k v g) = if k = j then some v else dictGet j g := by
  induction g with
  | nil => simp [dictSet, dictGet]
  | cons kv rest ih =>
      by_cases h1 : kv.1 = k
      · by_cases h2 : k = j <;> simp [dictSet, dictGet, h1, h2]
      · by_cases h2 : kv.1 = j
        · have hjk : ¬ j = k := fun he => h1 (h2.trans he)
          have hkj : ¬ k = j := fun he => hjk he.symm
          simp [dictSet, dictGet, h1, h2, hjk, hkj]
        · simp [dictSet, dictGet, h1, h2, ih]

theorem dictGet_eq_none_iff (g : Graph D) (k : String) :
    dictGet k g = none ↔ k ∉ keys g := by
  induction g with
  | nil => simp [dictGet, keys]
  | cons kv rest ih =>
      by_cases h : kv.1 = k
      · simp [dictGet, keys, h]
      · have h2 : dictGet k (kv :: rest) = dictGet k rest := by simp [dictGet, h]
        have hkeys : keys (kv :: rest) = kv.1 :: keys rest := rfl
        rw [h2, ih, hkeys]
        constructor
        · intro hk hmem
          rcases List.mem_cons.1 hmem with he | hm
          · exact h he.symm
          · exact hk hm
        · intro hk hm
          exact hk (List.mem_cons_of_mem _ hm)

theorem dictGet_isSome_of_mem_keys (g : Graph D) (k : String) (h : k ∈ keys g) :
    ∃ v, dictGet k g = some v := by
  cases hg : dictGet k g with
  | none => exact absurd ((dictGet_eq_none_iff g k).1 hg) (not_not_intro h)
  | some v => exact ⟨v, rfl⟩

theorem mem_keys_of_dictGet (g : Graph D) (k : String) (v : Person D)
    (h : dictGet k g = some v) : k ∈ keys g := by
  by_contra hk
  rw [(dictGet_eq_none_iff g k).2 hk] at h
  exact Option.noConfusion h

/-- Functional `add_friend` of `lab3_functional.py` (lines 34-46): if
`person2['id']` is not yet in `person1['friends']`, append each id to the
other's list.  The two persons are the dictionary entries at ids `i` and
`j`; when `i = j` the two appends hit the same list, so the id is
appended twice, exactly as the aliased Python lists behave. -/
def add_friend (g : Graph D) (i j : String) : Graph D :=
  match dictGet i g, dictGet j g with
  | some p1, some p2 =>
      if j ∈ p1.friends then g
      else if h : i = j then
        dictSet i { p1 with friends := p1.friends ++ [j] ++ [i] } g
      else
        dictSet i { p1 with friends := p1.friends ++ [j] }
          (dictSet j { p2 with friends := p2.friends ++ [i] } g)
  | _, _ => g

/-- Termination measure for the recursive OOP `add_friend`: how many of
the two directed edges `i → j` and `j → i` are still missing. -/
def missingEdges (g : Graph D) (i j : String) : Nat :=
  (if j ∈ friendsOf g i then 0 else 1) + (if i ∈ friendsOf g j then 0 else 1)

/-- OOP `Person.add_friend` (`lab3_oop_encapsulated.py` lines 30-35, and
identically `PersonDirectAccess.add_friend`): if the friend is not yet in
`self._friends`, append it, and if the reverse edge is also missing,
recursively call `friend.add_friend(self)`.  `self` and `friend` are the
heap entries at ids `i` and `j`; the unreachable case of an id missing
from the heap returns the heap unchanged. -/
def Person.add_friend (g : Graph D) (i j : String) : Graph D :=
  match hself : dictGet i g with
  | none => g
  | some self =>
      if hj : j ∈ self.friends then g
      else
        let g1 := dictSet i { self with friends := self.friends ++ [j] } g
        match hfr : dictGet j g1 with
        | none => g1
        | some friend =>
            if hi : i ∈ friend.friends then g1
            else Person.add_friend g1 j i
termination_by missingEdges g i j
decreasing_by
  have hne : i ≠ j := by
    intro he
    apply hi
    subst he
    have : dictGet i g1 = some { self with friends := self.friends ++ [i] } := by
      simp [g1, dictGet_dictSet]
    rw [this] at hfr
    cases hfr
    simp
  have hfr0 : dictGet j g = some friend := by
    have := hfr
    rw [dictGet_dictSet] at this
    simpa [hne] using this
  have h1 : friendsOf g i = self.friends := by simp [friendsOf, hself]
  have h2 : friendsOf g j = friend.friends := by simp [friendsOf, hfr0]
  have h3 : friendsOf g1 j = friend.friends := by simp [friendsOf, hfr]
  have h4 : friendsOf g1 i = self.friends ++ [j] := by
    have : dictGet i g1 = some { self with friends := self.friends ++ [j] } := by
      simp [g1, dictGet_dictSet]
    simp [friendsOf, this]
  simp only [missingEdges, h1, h2, h3, h4]
  simp [hj, hi]

/-- Mutable state of the collector closure: `visited_ids` (a set,
embedded as a duplicate-free list in insertion order) and
`objects_to_save`. -/
structure CollectState where
  visited : List String
  objects_to_save : List FlatRecord
deriving DecidableEq, Repr

/-- The flat projection of one person: `Person.to_dict` of
`lab3_oop_encapsulated.py` (lines 51-58), identical to the `obj_copy`
with text-encoded `born_in` built in `serialize_functional` and to the
`obj_data` dictionary of `DirectAccessSerializer.serialize`. -/
def toFlatRecord (iso : D → String) (p : Person D) : FlatRecord :=
  ⟨p.id, p.name, iso p.born_in, p.friends⟩

/-- The recursive `collect_objects` closure shared by all three variants
(`lab3_oop_encapsulated.py` lines 88-98, `lab3_functional.py` lines
61-77, `lab3_oop_direct_access.py` lines 41-57): skip an already visited
id, otherwise mark it visited, append its flat record, and recurse into
its friends in list order.  The nested recursion is embedded as a
worklist: the head is the current call's argument and the tail holds the
pending calls of the enclosing `for` loops.  An id absent from the
dictionary raises `KeyError` in the functional variant (`.error`); in
the OOP variants friends are object references, so that case never
arises there (the theorems assume a closed heap). -/
def collectObjects (iso : D → String) (g : Graph D) :
    List String → CollectState → Except String CollectState
  | [], st => .ok st
  | p :: pending, st =>
      if hp : p ∈ st.visited then collectObjects iso g pending st
      else
        match hq : dictGet p g with
        | none => .error p
        | some person =>
            collectObjects iso g (person.friends ++ pending)
              ⟨st.visited ++ [p], st.objects_to_save ++ [toFlatRecord iso person]⟩
termination_by pids st => (((keys g).toFinset \ st.visited.toFinset).card, pids.length)
decreasing_by
· apply Prod.Lex.right
  simp
· apply Prod.Lex.left
  have hpk : p ∈ (keys g).toFinset := List.mem_toFinset.2 (mem_keys_of_dictGet g p person hq)
  have hins : (st.visited ++ [p]).toFinset = insert p st.visited.toFinset := by
    ext x
    simp [List.toFinset_append, or_comm]
  rw [hins, Finset.sdiff_insert]
  exact Finset.card_erase_lt_of_mem
    (Finset.mem_sdiff.2 ⟨hpk, fun hc => hp (List.mem_toFinset.1 hc)⟩)

/-- Functional serializer (`serialize_functional`, lines 49-89): run the
collector from the root's id, then wrap the collected records and the
explicit `root_id` marker into the container.  JSON text encoding of the
container is a byte-level delivery detail and is not modelled. -/
def serialize_functional (iso : D → String) (g : Graph D) (root_person : Person D) :
    Except String Container :=
  (collectObjects iso g [root_person.id] ⟨[], []⟩).map
    (fun st => ⟨root_person.id, st.objects_to_save⟩)

/-- OOP serializer (`PersonSerializer.serialize`, lines 74-101, and
identically `DirectAccessSerializer.serialize`): run the collector from
the given person; the output is the bare list of records, with no
`root_id` marker (the root's record comes first). -/
def PersonSerializer.serialize (iso : D → String) (g : Graph D) (person : Person D) :
    Except String (List FlatRecord) :=
  (collectObjects iso g [person.id] ⟨[], []⟩).map CollectState.objects_to_save

/-- Phase-1 node built from one flat record: `Person.from_dict` followed
by the id/friends assignments of the deserializer (the factory's fresh
id and empty friends list are both overwritten, `lab3_functional.py`
lines 104-109), i.e. a person with the record's id, name, decoded
`born_in`, and a copy of the record's friend-id list. -/
def nodeFromRecord (fromiso : String → D) (r : FlatRecord) : Person D :=
  ⟨r.id, r.name, fromiso r.born_in, r.friends⟩

/-- Phase 1 of deserialization (`lab3_functional.py` lines 103-109,
`PersonSerializer.deserialize` lines 117-119): instantiate every record
and store it in the id-keyed cache with Python `dict` assignment (a
later record with the same id overwrites the value of an earlier one). -/
def instantiate (fromiso : String → D) : List FlatRecord → Graph D → Graph D
  | [], m => m
  | r :: rest, m => instantiate fromiso rest (dictSet r.id (nodeFromRecord fromiso r) m)

/-- The list comprehension `[cache[friend_id] for friend_id in friends]`
of phase 2: resolve each friend id left to right through the cache; a
missing id raises `KeyError` carrying that id (`.error`). -/
def resolveAll (m : Graph D) : List String → Except String (List (Person D))
  | [] => .ok []
  | f :: fs =>
      match dictGet f m with
      | none => .error f
      | some p => (resolveAll m fs).map (fun l => p :: l)

/-- Phase 2 of the functional deserializer (lines 118-122): for every
entry of `persons_dict`, in insertion order, resolve its friend ids
through the dictionary.  The resulting object references are the cache
entries themselves, so the linked graph is the cache together with the
friend-id lists; the phase's observable effects are the `KeyError`
check and the knot-tying, which the id-keyed representation carries
implicitly. -/
def linkPhase (m : Graph D) : List (String × Person D) → Except String Unit
  | [] => .ok ()
  | kv :: rest => do
      let _ ← resolveAll m kv.2.friends
      linkPhase m rest

/-- Functional deserializer (`deserialize_functional`, lines 92-124):
phase 1 instantiates all records into an empty cache, phase 2 links
friends, then the root is looked up by the container's explicit
`root_id` (a missing root id raises `KeyError root_id`).  Returns the
root person and the full id-to-person mapping. -/
def deserialize_functional (fromiso : String → D) (c : Container) :
    Except String (Person D × Graph D) := do
  let m := instantiate fromiso c.objects []
  let _ ← linkPhase m m
  match dictGet c.root_id m with
  | none => .error c.root_id
  | some root => .ok (root, m)

/-- Phase 2 of the OOP deserializers (`lab3_oop_encapsulated.py` lines
121-124, `lab3_oop_direct_access.py` lines 429-433): unlike the
functional variant, the loop runs over `objects_data` (every record,
including ones shadowed by a duplicate id), resolving each record's
friend ids through the cache. -/
def linkPhaseO (m : Graph D) : List FlatRecord → Except String Unit
  | [] => .ok ()
  | r :: rest => do
      let _ ← resolveAll m r.friends
      linkPhaseO m rest

/-- OOP deserializer (`PersonSerializer.deserialize`, lines 103-126, and
identically `DirectAccessSerializer.deserialize`): no `root_id` marker
is present, so the returned root is the cache entry at the id of the
FIRST record, `obj_cache[objects_data[0]['id']]`; an empty record list
raises `IndexError`. -/
def PersonSerializer.deserialize (fromiso : String → D) (objects_data : List FlatRecord) :
    Except String (Person D) := do
  let m := instantiate fromiso objects_data []
  let _ ← linkPhaseO m objects_data
  match objects_data with
  | [] => .error "list index out of range"
  | r0 :: _ =>
      match dictGet r0.id m with
      | none => .error r0.id
      | some root => .ok root

/-! A small reference/heap model for `Person.get_friends`
(`lab3_oop_encapsulated.py` lines 44-45): Python list objects live on a
heap and are passed by reference, and `self._friends.copy()` allocates a
fresh list object with the same elements.  A reference is an index into
the store's allocation list. -/

/-- A heap of allocated Python list objects (elements are the friend
references, represented by id as everywhere else in this embedding). -/
structure ListStore where
  cells : List (List String)
deriving DecidableEq, Repr

/-- Dereference a list object. -/
def readList (s : ListStore) (r : Nat) : List String := s.cells.getD r []

/-- In-place mutation of the list object behind a reference (`append`,
`remove`, slice assignment and the like all are writes of a new
contents to the same reference). -/
def writeList (s : ListStore) (r : Nat) (v : List String) : ListStore :=
  ⟨s.cells.set r v⟩

/-- Allocate a fresh list object, returning the new store and the fresh
reference. -/
def allocList (s : ListStore) (v : List String) : ListStore × Nat :=
  (⟨s.cells ++ [v]⟩, s.cells.length)

/-- `Person.get_friends`: `return self._friends.copy()` — allocate a
fresh list object holding the same elements as the internal
`_friends` list and hand back a reference to the copy. -/
def get_friends (s : ListStore) (friendsRef : Nat) : ListStore × Nat :=
  allocList s (readList s friendsRef)

/-! Specification-side notions, stated over the embedded data. -/

/-- Reachability along friendship edges from `root`, the closure that
the serializer is meant to enumerate: `root` reaches itself, and every
friend of a reachable person stored in the dictionary is reachable. -/
inductive Reaches (g : Graph D) (root : String) : String → Prop
  | refl : Reaches g root root
  | step {x y : String} {p : Person D} :
      Reaches g root x → dictGet x g = some p → y ∈ p.friends → Reaches g root y

/-- Every friend id mentioned anywhere in the dictionary is itself a key
of the dictionary (object references in the OOP heap, a caller invariant
in the functional variant). -/
def closedGraph (g : Graph D) : Prop :=
  ∀ kv ∈ g, ∀ f ∈ kv.2.friends, f ∈ keys g

/-- Each stored person's `id` field agrees with its dictionary key. -/
def consistentIds (g : Graph D) : Prop :=
  ∀ kv ∈ g, kv.2.id = kv.1

/-- Well-formed person dictionary: unique keys (ids are unique), keys
consistent with the stored `id` fields, and all friend references
resolvable. -/
def wfGraph (g : Graph D) : Prop :=
  (keys g).Nodup ∧ consistentIds g ∧ closedGraph g

/-- A length-2 cycle: two distinct persons who are friends of each
other. -/
def mutualPair (g : Graph D) (a b : String) : Prop :=
  a ≠ b ∧ ∃ pa pb, dictGet a g = some pa ∧ dictGet b g = some pb ∧
    b ∈ pa.friends ∧ a ∈ pb.friends

/-- A length-3 cycle: three pairwise distinct persons, each a friend of
the next. -/
def triangleCycle (g : Graph D) (a b c : String) : Prop :=
  a ≠ b ∧ b ≠ c ∧ a ≠ c ∧ ∃ pa pb pc,
    dictGet a g = some pa ∧ dictGet b g = some pb ∧ dictGet c g = some pc ∧
    b ∈ pa.friends ∧ c ∈ pb.friends ∧ a ∈ pc.friends

/-- The id sequence prescribed by the specification's words for the
collector, modelled from the spec (§4.1): depth-first from the root,
maintain a visited set, skip visited ids, otherwise emit the id and
recurse into the node's friends in friend order (the worklist tail holds
the pending recursive calls).  Spec-level: assumes the well-formed graph
of §4.1, so an unresolvable id simply ends the traversal. -/
def specVisitOrder (g : Graph D) : List String → List String → List String
  | [], _ => []
  | p :: pending, visited =>
      if hp : p ∈ visited then specVisitOrder g pending visited
      else
        match hq : dictGet p g with
        | none => []
        | some person => p :: specVisitOrder g (person.friends ++ pending) (visited ++ [p])
termination_by pids visited => (((keys g).toFinset \ visited.toFinset).card, pids.length)
decreasing_by
· apply Prod.Lex.right
  simp
· apply Prod.Lex.left
  have hpk : p ∈ (keys g).toFinset := List.mem_toFinset.2 (mem_keys_of_dictGet g p person hq)
  have hins : (visited ++ [p]).toFinset = insert p visited.toFinset := by
    ext x
    simp [List.toFinset_append, or_comm]
  rw [hins, Finset.sdiff_insert]
  exact Finset.card_erase_lt_of_mem
    (Finset.mem_sdiff.2 ⟨hpk, fun hc => hp (List.mem_toFinset.1 hc)⟩)

/-- The id column of a record list. -/
def recIds (l : List FlatRecord) : List String := l.map FlatRecord.id

/-- Identity codec on already-textual timestamps, instantiating the
datetime parameters in concrete checks. -/
def strCodec : String → String := fun s => s

/-- The triangle demo graph of the repository's tests: Ivan, Maria and
Alexey with edges a-b, a-c, b-c (short ids stand for the uuid4
strings). -/
def gTriangle : Graph String :=
  [("a", ⟨"a", "Ivan", "1990-05-15T00:00:00", ["b", "c"]⟩),
   ("b", ⟨"b", "Maria", "1992-08-22T00:00:00", ["a", "c"]⟩),
   ("c", ⟨"c", "Alexey", "1988-03-10T00:00:00", ["a", "b"]⟩)]

/-- The root person of `gTriangle`. -/
def pIvan : Person String := ⟨"a", "Ivan", "1990-05-15T00:00:00", ["b", "c"]⟩

/-- A two-person graph with a mutual (length-2) friendship cycle. -/
def gPair : Graph String :=
  [("a", ⟨"a", "Ivan", "1990-05-15T00:00:00", ["b"]⟩),
   ("b", ⟨"b", "Maria", "1992-08-22T00:00:00", ["a"]⟩)]

/-- The root person of `gPair`. -/
def pPairRoot : Person String := ⟨"a", "Ivan", "1990-05-15T00:00:00", ["b"]⟩

/-- The flat record of `gPair`'s "a". -/
def recA : FlatRecord := ⟨"a", "Ivan", "1990-05-15T00:00:00", ["b"]⟩

/-- The flat record of `gPair`'s "b". -/
def recB : FlatRecord := ⟨"b", "Maria", "1992-08-22T00:00:00", ["a"]⟩

/-- A graph holding a single friendless person. -/
def gSingle : Graph String := [("a", ⟨"a", "Ivan", "1990-05-15T00:00:00", []⟩)]

/-- A container whose two records share the id "a". -/
def dupContainer : Container :=
  ⟨"a", [⟨"a", "x", "d", []⟩, ⟨"a", "y", "d", []⟩]⟩

/-- A container whose only record references the absent friend id
"zz". -/
def danglingContainer : Container :=
  ⟨"a", [⟨"a", "Ivan", "d", ["zz"]⟩]⟩

/-- A one-cell store: cell 0 is a person's internal `_friends` list. -/
def storeOne : ListStore := ⟨[["b", "c"]]⟩

/-- Two persons with no friends yet. -/
def gTwo : Graph String :=
  [("a", ⟨"a", "Ivan", "d1", []⟩), ("b", ⟨"b", "Maria", "d2", []⟩)]

instance decConsistentIds (g : Graph D) : Decidable (consistentIds g) :=
  inferInstanceAs (Decidable (∀ kv ∈ g, kv.2.id = kv.1))

instance decClosedGraph (g : Graph D) : Decidable (closedGraph g) :=
  inferInstanceAs (Decidable (∀ kv ∈ g, ∀ f ∈ kv.2.friends, f ∈ keys g))

instance decWfGraph (g : Graph D) : Decidable (wfGraph g) :=
  inferInstanceAs (Decidable ((keys g).Nodup ∧ consistentIds g ∧ closedGraph g))

theorem dictGet_mem (g : Graph D) (k : String) (v : Person D)
    (h : dictGet k g = some v) : (k, v) ∈ g := by
  induction g with
  | nil => simp [dictGet] at h
  | cons kv rest ih =>
      by_cases hk : kv.1 = k
      · simp only [dictGet, if_pos hk] at h
        cases h
        exact List.mem_cons.2 (Or.inl (by rw [← hk]))
      · simp only [dictGet, if_neg hk] at h
        exact List.mem_cons_of_mem _ (ih h)

theorem collect_nil (iso : D → String) (g : Graph D) (st : CollectState) :
    collectObjects iso g [] st = .ok st := by
  simp [collectObjects]

theorem collect_cons_visited (iso : D → String) (g : Graph D) (p : String)
    (pending : List String) (st : CollectState) (hp : p ∈ st.visited) :
    collectObjects iso g (p :: pending) st = collectObjects iso g pending st := by
  rw [collectObjects.eq_def]
  simp [hp]

theorem collect_cons_missing (iso : D → String) (g : Graph D) (p : String)
    (pending : List String) (st : CollectState) (hp : p ∉ st.visited)
    (hq : dictGet p g = none) :
    collectObjects iso g (p :: pending) st = .error p := by
  rw [collectObjects.eq_def]
  simp only [dif_neg hp]
  split
  · rfl
  · rename_i person hq2
    rw [hq] at hq2
    cases hq2

theorem collect_cons_new (iso : D → String) (g : Graph D) (p : String)
    (pending : List String) (st : CollectState) (person : Person D)
    (hp : p ∉ st.visited) (hq : dictGet p g = some person) :
    collectObjects iso g (p :: pending) st =
      collectObjects iso g (person.friends ++ pending)
        ⟨st.visited ++ [p], st.objects_to_save ++ [toFlatRecord iso person]⟩ := by
  rw [collectObjects.eq_def]
  simp only [dif_neg hp]
  split
  · rename_i hq2
    rw [hq] at hq2
    cases hq2
  · rename_i person2 hq2
    rw [hq] at hq2
    cases hq2
    rfl

theorem specVisitOrder_nil (g : Graph D) (visited : List String) :
    specVisitOrder g [] visited = [] := by
  simp [specVisitOrder]

theorem specVisitOrder_cons_visited (g : Graph D) (p : String) (pending visited : List String)
    (hp : p ∈ visited) :
    specVisitOrder g (p :: pending) visited = specVisitOrder g pending visited := by
  rw [specVisitOrder.eq_def]
  simp [hp]

theorem specVisitOrder_cons_missing (g : Graph D) (p : String) (pending visited : List String)
    (hp : p ∉ visited) (hq : dictGet p g = none) :
    specVisitOrder g (p :: pending) visited = [] := by
  rw [specVisitOrder.eq_def]
  simp only [dif_neg hp]
  split
  · rfl
  · rename_i person hq2
    rw [hq] at hq2
    cases hq2

theorem specVisitOrder_cons_new (g : Graph D) (p : String) (pending visited : List String)
    (person : Person D) (hp : p ∉ visited) (hq : dictGet p g = some person) :
    specVisitOrder g (p :: pending) visited =
      p :: specVisitOrder g (person.friends ++ pending) (visited ++ [p]) := by
  rw [specVisitOrder.eq_def]
  simp only [dif_neg hp]
  split
  · rename_i hq2
    rw [hq] at hq2
    cases hq2
  · rename_i person2 hq2
    rw [hq] at hq2
    cases hq2
    rfl

theorem dictGet_consistent {g : Graph D} (hcons : consistentIds g) {k : String}
    {v : Person D} (h : dictGet k g = some v) : v.id = k :=
  hcons (k, v) (dictGet_mem g k v h)

theorem collect_visited_mono (iso : D → String) (g : Graph D)
    (pids : List String) (st : CollectState) :
    ∀ st', collectObjects iso g pids st = .ok st' → ∀ x ∈ st.visited, x ∈ st'.visited := by
  induction pids, st using collectObjects.induct iso g with
  | case1 st =>
      intro st' h x hx
      rw [collect_nil] at h
      cases h
      exact hx
  | case2 p pending st hp ih =>
      intro st' h x hx
      rw [collect_cons_visited iso g p pending st hp] at h
      exact ih st' h x hx
  | case3 p pending st hp hq =>
      intro st' h x hx
      rw [collect_cons_missing iso g p pending st hp hq] at h
      cases h
  | case4 p pending st hp person hq ih =>
      intro st' h x hx
      rw [collect_cons_new iso g p pending st person hp hq] at h
      exact ih st' h x (List.mem_append_left _ hx)

theorem collect_objects_grow (iso : D → String) (g : Graph D)
    (pids : List String) (st : CollectState) :
    ∀ st', collectObjects iso g pids st = .ok st' →
      ∃ extra, st'.objects_to_save = st.objects_to_save ++ extra := by
  induction pids, st using collectObjects.induct iso g with
  | case1 st =>
      intro st' h
      rw [collect_nil] at h
      cases h
      exact ⟨[], by simp⟩
  | case2 p pending st hp ih =>
      intro st' h
      rw [collect_cons_visited iso g p pending st hp] at h
      exact ih st' h
  | case3 p pending st hp hq =>
      intro st' h
      rw [collect_cons_missing iso g p pending st hp hq] at h
      cases h
  | case4 p pending st hp person hq ih =>
      intro st' h
      rw [collect_cons_new iso g p pending st person hp hq] at h
      obtain ⟨extra, he⟩ := ih st' h
      exact ⟨toFlatRecord iso person :: extra, by simpa using he⟩

theorem collect_visited_ids (iso : D → String) (g : Graph D)
    (hcons : consistentIds g) (pids : List String) (st : CollectState) :
    ∀ st', collectObjects iso g pids st = .ok st' →
      recIds st.objects_to_save = st.visited →
      recIds st'.objects_to_save = st'.visited := by
  induction pids, st using collectObjects.induct iso g with
  | case1 st =>
      intro st' h hinv
      rw [collect_nil] at h
      cases h
      exact hinv
  | case2 p pending st hp ih =>
      intro st' h hinv
      rw [collect_cons_visited iso g p pending st hp] at h
      exact ih st' h hinv
  | case3 p pending st hp hq =>
      intro st' h hinv
      rw [collect_cons_missing iso g p pending st hp hq] at h
      cases h
  | case4 p pending st hp person hq ih =>
      intro st' h hinv
      rw [collect_cons_new iso g p pending st person hp hq] at h
      apply ih st' h
      have hid : person.id = p := dictGet_consistent hcons hq
      simp [recIds, toFlatRecord, hid] at hinv ⊢
      exact hinv

theorem collect_visited_nodup (iso : D → String) (g : Graph D)
    (pids : List String) (st : CollectState) :
    ∀ st', collectObjects iso g pids st = .ok st' →
      st.visited.Nodup → st'.visited.Nodup := by
  induction pids, st using collectObjects.induct iso g with
  | case1 st =>
      intro st' h hnd
      rw [collect_nil] at h
      cases h
      exact hnd
  | case2 p pending st hp ih =>
      intro st' h hnd
      rw [collect_cons_visited iso g p pending st hp] at h
      exact ih st' h hnd
  | case3 p pending st hp hq =>
      intro st' h hnd
      rw [collect_cons_missing iso g p pending st hp hq] at h
      cases h
  | case4 p pending st hp person hq ih =>
      intro st' h hnd
      rw [collect_cons_new iso g p pending st person hp hq] at h
      apply ih st' h
      simp [List.nodup_append, hnd]
      exact hp

theorem collect_pending_visited (iso : D → String) (g : Graph D)
    (pids : List String) (st : CollectState) :
    ∀ st', collectObjects iso g pids st = .ok st' →
      ∀ q ∈ pids, q ∈ st'.visited := by
  induction pids, st using collectObjects.induct iso g with
  | case1 st =>
      intro st' h q hq
      cases hq
  | case2 p pending st hp ih =>
      intro st' h q hq
      rw [collect_cons_visited iso g p pending st hp] at h
      rcases List.mem_cons.1 hq with he | hm
      · exact collect_visited_mono iso g pending st st' h q (he ▸ hp)
      · exact ih st' h q hm
  | case3 p pending st hp hqn =>
      intro st' h q hq
      rw [collect_cons_missing iso g p pending st hp hqn] at h
      cases h
  | case4 p pending st hp person hqs ih =>
      intro st' h q hq
      rw [collect_cons_new iso g p pending st person hp hqs] at h
      rcases List.mem_cons.1 hq with he | hm
      · refine collect_visited_mono iso g _ _ st' h q ?_
        subst he
        simp
      · exact ih st' h q (List.mem_append_right _ hm)

theorem collect_visited_closed (iso : D → String) (g : Graph D)
    (pids : List String) (st : CollectState) :
    ∀ st', collectObjects iso g pids st = .ok st' →
      (∀ v ∈ st.visited, ∀ pd, dictGet v g = some pd →
        ∀ f ∈ pd.friends, f ∈ st.visited ∨ f ∈ pids) →
      ∀ v ∈ st'.visited, ∀ pd, dictGet v g = some pd →
        ∀ f ∈ pd.friends, f ∈ st'.visited := by
  induction pids, st using collectObjects.induct iso g with
  | case1 st =>
      intro st' h hcl v hv pd hpd f hf
      rw [collect_nil] at h
      cases h
      rcases hcl v hv pd hpd f hf with hc | hc
      · exact hc
      · cases hc
  | case2 p pending st hp ih =>
      intro st' h hcl
      rw [collect_cons_visited iso g p pending st hp] at h
      refine ih st' h ?_
      intro v hv pd hpd f hf
      rcases hcl v hv pd hpd f hf with hc | hc
      · exact Or.inl hc
      · rcases List.mem_cons.1 hc with he | hm
        · exact Or.inl (he ▸ hp)
        · exact Or.inr hm
  | case3 p pending st hp hqn =>
      intro st' h hcl
      rw [collect_cons_missing iso g p pending st hp hqn] at h
      cases h
  | case4 p pending st hp person hqs ih =>
      intro st' h hcl
      rw [collect_cons_new iso g p pending st person hp hqs] at h
      refine ih st' h ?_
      intro v hv pd hpd f hf
      rcases List.mem_append.1 hv with hv1 | hv2
      · rcases hcl v hv1 pd hpd f hf with hc | hc
        · exact Or.inl (List.mem_append_left _ hc)
        · rcases List.mem_cons.1 hc with he | hm
          · exact Or.inl (by simp [he])
          · exact Or.inr (List.mem_append_right _ hm)
      · have hvp : v = p := by simpa using hv2
        subst hvp
        rw [hqs] at hpd
        cases hpd
        exact Or.inr (List.mem_append_left _ hf)

theorem collect_visited_sound (iso : D → String) (g : Graph D) (root : String)
    (pids : List String) (st : CollectState) :
    ∀ st', collectObjects iso g pids st = .ok st' →
      (∀ q ∈ pids, Reaches g root q) →
      (∀ v ∈ st.visited, Reaches g root v) →
      ∀ v ∈ st'.visited, Reaches g root v := by
  induction pids, st using collectObjects.induct iso g with
  | case1 st =>
      intro st' h _ hvis v hv
      rw [collect_nil] at h
      cases h
      exact hvis v hv
  | case2 p pending st hp ih =>
      intro st' h hpend hvis
      rw [collect_cons_visited iso g p pending st hp] at h
      exact ih st' h (fun q hq => hpend q (List.mem_cons_of_mem _ hq)) hvis
  | case3 p pending st hp hqn =>
      intro st' h hpend hvis
      rw [collect_cons_missing iso g p pending st hp hqn] at h
      cases h
  | case4 p pending st hp person hqs ih =>
      intro st' h hpend hvis
      rw [collect_cons_new iso g p pending st person hp hqs] at h
      have hrp : Reaches g root p := hpend p (List.mem_cons_self p pending)
      refine ih st' h ?_ ?_
      · intro q hq
        rcases List.mem_append.1 hq with hf | hm
        · exact Reaches.step hrp hqs hf
        · exact hpend q (List.mem_cons_of_mem _ hm)
      · intro v hv
        rcases List.mem_append.1 hv with hv1 | hv2
        · exact hvis v hv1
        · have : v = p := by simpa using hv2
          exact this ▸ hrp

theorem collect_ok_exists (iso : D → String) (g : Graph D)
    (hclosed : closedGraph g) (pids : List String) (st : CollectState) :
    (∀ q ∈ pids, q ∈ keys g) → ∃ st', collectObjects iso g pids st = .ok st' := by
  induction pids, st using collectObjects.induct iso g with
  | case1 st =>
      intro _
      exact ⟨st, collect_nil iso g st⟩
  | case2 p pending st hp ih =>
      intro hpend
      rw [collect_cons_visited iso g p pending st hp]
      exact ih (fun q hq => hpend q (List.mem_cons_of_mem _ hq))
  | case3 p pending st hp hqn =>
      intro hpend
      exact absurd (hpend p (List.mem_cons_self p pending))
        ((dictGet_eq_none_iff g p).1 hqn)
  | case4 p pending st hp person hqs ih =>
      intro hpend
      rw [collect_cons_new iso g p pending st person hp hqs]
      refine ih ?_
      intro q hq
      rcases List.mem_append.1 hq with hf | hm
      · exact hclosed (p, person) (dictGet_mem g p person hqs) q hf
      · exact hpend q (List.mem_cons_of_mem _ hm)

theorem collect_records_inv (iso : D → String) (g : Graph D)
    (hcons : consistentIds g) (pids : List String) (st : CollectState) :
    ∀ st', collectObjects iso g pids st = .ok st' →
      (∀ r ∈ st.objects_to_save, ∃ pd, dictGet r.id g = some pd ∧ r = toFlatRecord iso pd) →
      ∀ r ∈ st'.objects_to_save, ∃ pd, dictGet r.id g = some pd ∧ r = toFlatRecord iso pd := by
  induction pids, st using collectObjects.induct iso g with
  | case1 st =>
      intro st' h hinv
      rw [collect_nil] at h
      cases h
      exact hinv
  | case2 p pending st hp ih =>
      intro st' h hinv
      rw [collect_cons_visited iso g p pending st hp] at h
      exact ih st' h hinv
  | case3 p pending st hp hqn =>
      intro st' h hinv
      rw [collect_cons_missing iso g p pending st hp hqn] at h
      cases h
  | case4 p pending st hp person hqs ih =>
      intro st' h hinv
      rw [collect_cons_new iso g p pending st person hp hqs] at h
      refine ih st' h ?_
      intro r hr
      rcases List.mem_append.1 hr with hr1 | hr2
      · exact hinv r hr1
      · have : r = toFlatRecord iso person := by simpa using hr2
        subst this
        have hid : person.id = p := dictGet_consistent hcons hqs
        exact ⟨person, by simpa [toFlatRecord, hid] using hqs, rfl⟩

theorem collect_spec_order (iso : D → String) (g : Graph D)
    (pids : List String) (st : CollectState) :
    ∀ st', collectObjects iso g pids st = .ok st' →
      st'.visited = st.visited ++ specVisitOrder g pids st.visited := by
  induction pids, st using collectObjects.induct iso g with
  | case1 st =>
      intro st' h
      rw [collect_nil] at h
      cases h
      simp [specVisitOrder_nil]
  | case2 p pending st hp ih =>
      intro st' h
      rw [collect_cons_visited iso g p pending st hp] at h
      rw [specVisitOrder_cons_visited g p pending st.visited hp]
      exact ih st' h
  | case3 p pending st hp hqn =>
      intro st' h
      rw [collect_cons_missing iso g p pending st hp hqn] at h
      cases h
  | case4 p pending st hp person hqs ih =>
      intro st' h
      rw [collect_cons_new iso g p pending st person hp hqs] at h
      rw [specVisitOrder_cons_new g p pending st.visited person hp hqs]
      have := ih st' h
      simp only [this]
      simp

theorem collect_reaches_visited (iso : D → String) (g : Graph D) (root : String)
    (st' : CollectState) (h : collectObjects iso g [root] ⟨[], []⟩ = .ok st') :
    ∀ x, Reaches g root x → x ∈ st'.visited := by
  have hclosed := collect_visited_closed iso g [root] ⟨[], []⟩ st' h
    (by intro v hv; cases hv)
  have hroot : root ∈ st'.visited :=
    collect_pending_visited iso g [root] ⟨[], []⟩ st' h root (by simp)
  intro x hx
  induction hx with
  | refl => exact hroot
  | step hr hpd hf ih => exact hclosed _ ih _ hpd _ hf

/-- Summary of everything the collector guarantees when run from a root
of a well-formed dictionary. -/
theorem collect_summary (iso : D → String) (g : Graph D) (hwf : wfGraph g)
    (rootP : Person D) (hroot : dictGet rootP.id g = some rootP) :
    ∃ st', collectObjects iso g [rootP.id] ⟨[], []⟩ = .ok st' ∧
      recIds st'.objects_to_save = st'.visited ∧
      st'.visited.Nodup ∧
      (∀ x, x ∈ st'.visited ↔ Reaches g rootP.id x) ∧
      (∀ r ∈ st'.objects_to_save, ∃ pd, dictGet r.id g = some pd ∧ r = toFlatRecord iso pd) ∧
      st'.visited = specVisitOrder g [rootP.id] [] := by
  obtain ⟨hnd, hcons, hclosed⟩ := hwf
  obtain ⟨st', hok⟩ := collect_ok_exists iso g hclosed [rootP.id] ⟨[], []⟩
    (by intro q hq; simp at hq; exact hq ▸ mem_keys_of_dictGet g _ _ hroot)
  refine ⟨st', hok, ?_, ?_, ?_, ?_, ?_⟩
  · exact collect_visited_ids iso g hcons [rootP.id] ⟨[], []⟩ st' hok rfl
  · exact collect_visited_nodup iso g [rootP.id] ⟨[], []⟩ st' hok (by simp)
  · intro x
    constructor
    · intro hx
      refine collect_visited_sound iso g rootP.id [rootP.id] ⟨[], []⟩ st' hok ?_ ?_ x hx
      · intro q hq
        simp at hq
        exact hq ▸ Reaches.refl
      · intro v hv
        cases hv
    · exact collect_reaches_visited iso g rootP.id st' hok x
  · exact collect_records_inv iso g hcons [rootP.id] ⟨[], []⟩ st' hok (by intro r hr; cases hr)
  · simpa using collect_spec_order iso g [rootP.id] ⟨[], []⟩ st' hok

theorem dictSet_entries (m : Graph D) (k : String) (v : Person D) :
    ∀ kv ∈ dictSet k v m, kv = (k, v) ∨ kv ∈ m := by
  induction m with
  | nil =>
      intro kv hkv
      simp [dictSet] at hkv
      exact Or.inl hkv
  | cons kv0 rest ih =>
      intro kv hkv
      by_cases hk : kv0.1 = k
      · simp only [dictSet, if_pos hk] at hkv
        rcases List.mem_cons.1 hkv with he | hm
        · exact Or.inl he
        · exact Or.inr (List.mem_cons_of_mem _ hm)
      · simp only [dictSet, if_neg hk] at hkv
        rcases List.mem_cons.1 hkv with he | hm
        · exact Or.inr (he ▸ List.mem_cons_self kv0 rest)
        · rcases ih kv hm with hc | hc
          · exact Or.inl hc
          · exact Or.inr (List.mem_cons_of_mem _ hc)

theorem instantiate_append (fromiso : String → D) (l1 l2 : List FlatRecord) (m : Graph D) :
    instantiate fromiso (l1 ++ l2) m = instantiate fromiso l2 (instantiate fromiso l1 m) := by
  induction l1 generalizing m with
  | nil => simp [instantiate]
  | cons r rest ih => simp [instantiate, ih]

theorem instantiate_get_not_mem (fromiso : String → D) (rs : List FlatRecord)
    (m : Graph D) (k : String) (hk : k ∉ recIds rs) :
    dictGet k (instantiate fromiso rs m) = dictGet k m := by
  induction rs generalizing m with
  | nil => simp [instantiate]
  | cons r rest ih =>
      simp only [recIds, List.map_cons, List.mem_cons] at hk
      push_neg at hk
      simp only [instantiate]
      rw [ih _ (by simpa [recIds] using hk.2), dictGet_dictSet]
      have hrk : ¬ r.id = k := fun he => hk.1 he.symm
      simp [hrk]

theorem instantiate_get_mem (fromiso : String → D) (rs : List FlatRecord)
    (m : Graph D) (hnd : (recIds rs).Nodup) (r : FlatRecord) (hr : r ∈ rs) :
    dictGet r.id (instantiate fromiso rs m) = some (nodeFromRecord fromiso r) := by
  induction rs generalizing m with
  | nil => cases hr
  | cons s rest ih =>
      simp only [recIds, List.map_cons, List.nodup_cons] at hnd
      rcases List.mem_cons.1 hr with he | hm
      · subst he
        simp only [instantiate]
        rw [instantiate_get_not_mem fromiso rest _ r.id (by simpa [recIds] using hnd.1)]
        rw [dictGet_dictSet]
        simp
      · simp only [instantiate]
        exact ih _ (by simpa [recIds] using hnd.2) hm

theorem instantiate_get_none_iff (fromiso : String → D) (rs : List FlatRecord)
    (m : Graph D) (k : String) :
    dictGet k (instantiate fromiso rs m) = none ↔ k ∉ recIds rs ∧ dictGet k m = none := by
  induction rs generalizing m with
  | nil => simp [instantiate, recIds]
  | cons r rest ih =>
      simp only [instantiate]
      rw [ih]
      rw [dictGet_dictSet]
      constructor
      · rintro ⟨h1, h2⟩
        by_cases he : r.id = k
        · simp [he] at h2
        · simp [he] at h2
          refine ⟨?_, h2⟩
          simp [recIds]
          push_neg
          constructor
          · exact fun hke => he hke.symm
          · intro x hx hxk
            exact h1 (by simp [recIds]; exact ⟨x, hx, hxk⟩)
      · rintro ⟨h1, h2⟩
        simp [recIds] at h1
        push_neg at h1
        refine ⟨?_, ?_⟩
        · simp [recIds]
          push_neg
          exact h1.2
        · have : ¬ r.id = k := fun he => h1.1 he.symm
          simp [this, h2]

theorem instantiate_entries (fromiso : String → D) (rs : List FlatRecord) (m : Graph D) :
    ∀ kv ∈ instantiate fromiso rs m, kv ∈ m ∨
      ∃ r ∈ rs, kv = (r.id, nodeFromRecord fromiso r) := by
  induction rs generalizing m with
  | nil =>
      intro kv hkv
      exact Or.inl hkv
  | cons r rest ih =>
      intro kv hkv
      simp only [instantiate] at hkv
      rcases ih _ kv hkv with hm | ⟨r', hr', he⟩
      · rcases dictSet_entries m r.id _ kv hm with he | hm2
        · exact Or.inr ⟨r, List.mem_cons_self r rest, he⟩
        · exact Or.inl hm2
      · exact Or.inr ⟨r', List.mem_cons_of_mem _ hr', he⟩

theorem resolveAll_ok_of (m : Graph D) (fids : List String)
    (h : ∀ f ∈ fids, dictGet f m ≠ none) :
    ∃ l, resolveAll m fids = .ok l := by
  induction fids with
  | nil => exact ⟨[], rfl⟩
  | cons f fs ih =>
      obtain ⟨v, hv⟩ := Option.ne_none_iff_exists'.1 (h f (List.mem_cons_self f fs))
      obtain ⟨l, hl⟩ := ih (fun f' hf' => h f' (List.mem_cons_of_mem _ hf'))
      exact ⟨v :: l, by simp [resolveAll, hv, hl, Except.map]⟩

theorem resolveAll_error_of (m : Graph D) (fids : List String)
    (h : ∃ f ∈ fids, dictGet f m = none) :
    ∃ f', resolveAll m fids = .error f' ∧ f' ∈ fids ∧ dictGet f' m = none := by
  induction fids with
  | nil => simp at h
  | cons f fs ih =>
      cases hv : dictGet f m with
      | none => exact ⟨f, by simp [resolveAll, hv], List.mem_cons_self f fs, hv⟩
      | some v =>
          obtain ⟨f0, hf0, hf0n⟩ := h
          have hf0fs : f0 ∈ fs := by
            rcases List.mem_cons.1 hf0 with he | hm
            · rw [he, hv] at hf0n
              cases hf0n
            · exact hm
          obtain ⟨f', he', hm', hn'⟩ := ih ⟨f0, hf0fs, hf0n⟩
          exact ⟨f', by simp [resolveAll, hv, he', Except.map], List.mem_cons_of_mem _ hm', hn'⟩

theorem linkPhase_ok_of (m : Graph D) (entries : List (String × Person D))
    (h : ∀ kv ∈ entries, ∀ f ∈ kv.2.friends, dictGet f m ≠ none) :
    linkPhase m entries = .ok () := by
  induction entries with
  | nil => rfl
  | cons kv rest ih =>
      obtain ⟨l, hl⟩ := resolveAll_ok_of m kv.2.friends (h kv (List.mem_cons_self kv rest))
      simp [linkPhase, hl, bind, Except.bind]
      exact ih (fun kv' hkv' => h kv' (List.mem_cons_of_mem _ hkv'))

theorem linkPhase_error_of (m : Graph D) (entries : List (String × Person D))
    (h : ∃ kv ∈ entries, ∃ f ∈ kv.2.friends, dictGet f m = none) :
    ∃ f', linkPhase m entries = .error f' ∧ dictGet f' m = none ∧
      ∃ kv ∈ entries, f' ∈ kv.2.friends := by
  induction entries with
  | nil => simp at h
  | cons kv rest ih =>
      by_cases hkv : ∃ f ∈ kv.2.friends, dictGet f m = none
      · obtain ⟨f', he', hm', hn'⟩ := resolveAll_error_of m kv.2.friends hkv
        exact ⟨f', by simp [linkPhase, he', bind, Except.bind], hn',
          kv, List.mem_cons_self kv rest, hm'⟩
      · obtain ⟨kv0, hkv0, hf0⟩ := h
        have hkv0r : kv0 ∈ rest := by
          rcases List.mem_cons.1 hkv0 with he | hm
          · exact absurd (he ▸ hf0) hkv
          · exact hm
        obtain ⟨l, hl⟩ := resolveAll_ok_of m kv.2.friends (by
          intro f hf
          by_contra hn
          exact hkv ⟨f, hf, by simpa using hn⟩)
        obtain ⟨f', he', hn', kv', hkv', hm'⟩ := ih ⟨kv0, hkv0r, hf0⟩
        exact ⟨f', by simp [linkPhase, hl, he', bind, Except.bind], hn',
          kv', List.mem_cons_of_mem _ hkv', hm'⟩

theorem linkPhaseO_ok_of (m : Graph D) (rs : List FlatRecord)
    (h : ∀ r ∈ rs, ∀ f ∈ r.friends, dictGet f m ≠ none) :
    linkPhaseO m rs = .ok () := by
  induction rs with
  | nil => rfl
  | cons r rest ih =>
      obtain ⟨l, hl⟩ := resolveAll_ok_of m r.friends (h r (List.mem_cons_self r rest))
      simp [linkPhaseO, hl, bind, Except.bind]
      exact ih (fun r' hr' => h r' (List.mem_cons_of_mem _ hr'))

theorem linkPhaseO_error_of (m : Graph D) (rs : List FlatRecord)
    (h : ∃ r ∈ rs, ∃ f ∈ r.friends, dictGet f m = none) :
    ∃ f', linkPhaseO m rs = .error f' ∧ dictGet f' m = none ∧
      ∃ r ∈ rs, f' ∈ r.friends := by
  induction rs with
  | nil => simp at h
  | cons r rest ih =>
      by_cases hr : ∃ f ∈ r.friends, dictGet f m = none
      · obtain ⟨f', he', hm', hn'⟩ := resolveAll_error_of m r.friends hr
        exact ⟨f', by simp [linkPhaseO, he', bind, Except.bind], hn', r, List.mem_cons_self r rest, hm'⟩
      · obtain ⟨r0, hr0, hf0⟩ := h
        have hr0r : r0 ∈ rest := by
          rcases List.mem_cons.1 hr0 with he | hm
          · exact absurd (he ▸ hf0) hr
          · exact hm
        obtain ⟨l, hl⟩ := resolveAll_ok_of m r.friends (by
          intro f hf
          by_contra hn
          exact hr ⟨f, hf, by simpa using hn⟩)
        obtain ⟨f', he', hn', r', hr', hm'⟩ := ih ⟨r0, hr0r, hf0⟩
        exact ⟨f', by simp [linkPhaseO, hl, he', bind, Except.bind], hn', r', List.mem_cons_of_mem _ hr', hm'⟩

/-- When every friend id and the root id are among the record ids, the
functional deserializer succeeds, returning the phase-1 cache and the
cache entry at `root_id`. -/
theorem deserialize_functional_ok (fromiso : String → D) (c : Container)
    (hclosed : ∀ r ∈ c.objects, ∀ f ∈ r.friends, f ∈ recIds c.objects)
    (hroot : c.root_id ∈ recIds c.objects) :
    ∃ rootP, deserialize_functional fromiso c =
        .ok (rootP, instantiate fromiso c.objects []) ∧
      dictGet c.root_id (instantiate fromiso c.objects []) = some rootP := by
  have hget : ∀ f ∈ recIds c.objects, dictGet f (instantiate fromiso c.objects []) ≠ none := by
    intro f hf hn
    exact ((instantiate_get_none_iff fromiso c.objects [] f).1 hn).1 hf
  have hlink : linkPhase (instantiate fromiso c.objects []) (instantiate fromiso c.objects []) = .ok () := by
    apply linkPhase_ok_of
    intro kv hkv f hf
    rcases instantiate_entries fromiso c.objects [] kv hkv with hm | ⟨r, hr, he⟩
    · cases hm
    · refine hget f (hclosed r hr f ?_)
      rw [he] at hf
      exact hf
  cases hr : dictGet c.root_id (instantiate fromiso c.objects []) with
  | none => exact absurd hr (hget _ hroot)
  | some rootP =>
      refine ⟨rootP, ?_, rfl⟩
      simp [deserialize_functional, hlink, hr, bind, Except.bind]

theorem Person.add_friend_already (g : Graph D) (i j : String) (self : Person D)
    (hself : dictGet i g = some self) (hj : j ∈ self.friends) :
    Person.add_friend g i j = g := by
  rw [Person.add_friend.eq_def]
  split
  · rfl
  · rename_i self2 hs2
    rw [hself] at hs2
    cases hs2
    simp [hj]

theorem Person.add_friend_reverse_present (g : Graph D) (i j : String)
    (self friend : Person D) (hself : dictGet i g = some self) (hj : j ∉ self.friends)
    (hfr : dictGet j (dictSet i { self with friends := self.friends ++ [j] } g) = some friend)
    (hi : i ∈ friend.friends) :
    Person.add_friend g i j = dictSet i { self with friends := self.friends ++ [j] } g := by
  rw [Person.add_friend.eq_def]
  split
  · rename_i hs2
    rw [hself] at hs2
    cases hs2
  · rename_i self2 hs2
    rw [hself] at hs2
    cases hs2
    simp only [dif_neg hj]
    split
    · rfl
    · rename_i friend2 hf2
      rw [hfr] at hf2
      cases hf2
      simp [hi]

theorem Person.add_friend_reverse_missing (g : Graph D) (i j : String)
    (self friend : Person D) (hself : dictGet i g = some self) (hj : j ∉ self.friends)
    (hfr : dictGet j (dictSet i { self with friends := self.friends ++ [j] } g) = some friend)
    (hi : i ∉ friend.friends) :
    Person.add_friend g i j =
      Person.add_friend (dictSet i { self with friends := self.friends ++ [j] } g) j i := by
  rw [Person.add_friend.eq_def]
  split
  · rename_i hs2
    rw [hself] at hs2
    cases hs2
  · rename_i self2 hs2
    rw [hself] at hs2
    cases hs2
    simp only [dif_neg hj]
    split
    · rename_i hf2
      rw [hfr] at hf2
      cases hf2
    · rename_i friend2 hf2
      rw [hfr] at hf2
      cases hf2
      simp [hi]

/-- The phase-1 cache, read pointwise, is invariant under permuting the
record sequence, provided ids are unique. -/
theorem instantiate_perm_pointwise (fromiso : String → D) (l l' : List FlatRecord)
    (hperm : l.Perm l') (hnd : (recIds l).Nodup) (k : String) :
    dictGet k (instantiate fromiso l []) = dictGet k (instantiate fromiso l' []) := by
  have hperm_ids : (recIds l).Perm (recIds l') := hperm.map FlatRecord.id
  have hnd' : (recIds l').Nodup := hperm_ids.nodup_iff.1 hnd
  by_cases hk : k ∈ recIds l
  · obtain ⟨r, hr, hrid⟩ := List.mem_map.1 hk
    subst hrid
    rw [instantiate_get_mem fromiso l [] hnd r hr,
      instantiate_get_mem fromiso l' [] hnd' r (hperm.mem_iff.1 hr)]
  · have hk' : k ∉ recIds l' := fun hc => hk (hperm_ids.mem_iff.2 hc)
    rw [instantiate_get_not_mem fromiso l [] k hk, instantiate_get_not_mem fromiso l' [] k hk']

theorem add_friend_noop_of_mem (G : Graph D) (i j : String) (q1 q2 : Person D)
    (h1 : dictGet i G = some q1) (h2 : dictGet j G = some q2)
    (hm : j ∈ q1.friends) : add_friend G i j = G := by
  simp [add_friend, h1, h2, hm]

/-- C3: for distinct persons `i` and `j` stored in the dictionary whose
friend lists satisfy the symmetry invariant in the direction that
matters (`j ∈ i.friends → i ∈ j.friends`, which holds in any state built
by `add_friend` alone), after `add_friend(i, j)` each is in the other's
friends list, and running `add_friend(i, j)` a second time leaves the
state unchanged — for the recursive OOP method and for the functional
variant alike. -/
theorem C3_add_friend_symmetry_idempotence (g : Graph D) (i j : String) (hij : i ≠ j)
    (pi pj : Person D) (hi : dictGet i g = some pi) (hj : dictGet j g = some pj)
    (hsym : j ∈ pi.friends → i ∈ pj.friends) :
    (j ∈ friendsOf (Person.add_friend g i j) i ∧
     i ∈ friendsOf (Person.add_friend g i j) j ∧
     Person.add_friend (Person.add_friend g i j) i j = Person.add_friend g i j) ∧
    (j ∈ friendsOf (add_friend g i j) i ∧
     i ∈ friendsOf (add_friend g i j) j ∧
     add_friend (add_friend g i j) i j = add_friend g i j) := by
  have hji : ¬ j = i := fun he => hij he.symm
  constructor
  · -- OOP recursive add_friend
    by_cases hjf : j ∈ pi.friends
    · rw [Person.add_friend_already g i j pi hi hjf]
      exact ⟨by simp [friendsOf, hi, hjf], by simp [friendsOf, hj, hsym hjf],
        Person.add_friend_already g i j pi hi hjf⟩
    · have hfr : dictGet j (dictSet i { pi with friends := pi.friends ++ [j] } g) = some pj := by
        rw [dictGet_dictSet]
        simp [hij, hj]
      have hget1 : dictGet i (dictSet i { pi with friends := pi.friends ++ [j] } g) =
          some { pi with friends := pi.friends ++ [j] } := by
        rw [dictGet_dictSet]
        simp
      by_cases hif : i ∈ pj.friends
      · rw [Person.add_friend_reverse_present g i j pi pj hi hjf hfr hif]
        refine ⟨by simp [friendsOf, hget1], by simp [friendsOf, hfr, hif], ?_⟩
        exact Person.add_friend_already _ i j _ hget1 (by simp)
      · rw [Person.add_friend_reverse_missing g i j pi pj hi hjf hfr hif]
        have hget2 : dictGet i (dictSet j { pj with friends := pj.friends ++ [i] }
            (dictSet i { pi with friends := pi.friends ++ [j] } g)) =
            some { pi with friends := pi.friends ++ [j] } := by
          rw [dictGet_dictSet]
          simp [hji, hget1]
        have hstep : Person.add_friend
            (dictSet i { pi with friends := pi.friends ++ [j] } g) j i =
            dictSet j { pj with friends := pj.friends ++ [i] }
              (dictSet i { pi with friends := pi.friends ++ [j] } g) := by
          refine Person.add_friend_reverse_present _ j i pj
            { pi with friends := pi.friends ++ [j] } hfr hif ?_ (by simp)
          rw [dictGet_dictSet]
          simp [hji, hget1]
        rw [hstep]
        refine ⟨by simp [friendsOf, hget2], ?_, ?_⟩
        · have : dictGet j (dictSet j { pj with friends := pj.friends ++ [i] }
              (dictSet i { pi with friends := pi.friends ++ [j] } g)) =
              some { pj with friends := pj.friends ++ [i] } := by
            rw [dictGet_dictSet]
            simp
          simp [friendsOf, this]
        · exact Person.add_friend_already _ i j _ hget2 (by simp)
  · -- functional add_friend
    by_cases hjf : j ∈ pi.friends
    · have he : add_friend g i j = g := by
        simp [add_friend, hi, hj, hjf]
      rw [he]
      exact ⟨by simp [friendsOf, hi, hjf], by simp [friendsOf, hj, hsym hjf], he⟩
    · have he : add_friend g i j =
          dictSet i { pi with friends := pi.friends ++ [j] }
            (dictSet j { pj with friends := pj.friends ++ [i] } g) := by
        simp [add_friend, hi, hj, hjf, hij]
      have hgi : dictGet i (add_friend g i j) = some { pi with friends := pi.friends ++ [j] } := by
        rw [he, dictGet_dictSet]
        simp
      have hgj : dictGet j (add_friend g i j) = some { pj with friends := pj.friends ++ [i] } := by
        rw [he, dictGet_dictSet, dictGet_dictSet]
        simp [hij]
      refine ⟨by simp [friendsOf, hgi], by simp [friendsOf, hgj], ?_⟩
      exact add_friend_noop_of_mem _ i j _ _ hgi hgj (by simp)

/-- C4: if some instantiated record's friends list mentions an id that
is not among the record ids (ids being unique, every record is
instantiated), or the designated root id is not among them, the
functional deserializer fails with a `KeyError` carrying an offending
missing id — it never silently returns a graph with a hole. -/
theorem C4_dangling_reference_error (fromiso : String → D) (c : Container)
    (hnd : (recIds c.objects).Nodup)
    (hbad : (∃ r ∈ c.objects, ∃ f ∈ r.friends, f ∉ recIds c.objects) ∨
      c.root_id ∉ recIds c.objects) :
    ∃ missing, deserialize_functional fromiso c = .error missing ∧
      missing ∉ recIds c.objects ∧
      ((∃ r ∈ c.objects, missing ∈ r.friends) ∨ missing = c.root_id) := by
  by_cases hdang : ∃ r ∈ c.objects, ∃ f ∈ r.friends, f ∉ recIds c.objects
  · obtain ⟨r, hr, f, hf, hfn⟩ := hdang
    have hentry : (r.id, nodeFromRecord fromiso r) ∈ instantiate fromiso c.objects [] :=
      dictGet_mem _ _ _ (instantiate_get_mem fromiso c.objects [] hnd r hr)
    have hfm : dictGet f (instantiate fromiso c.objects []) = none :=
      (instantiate_get_none_iff fromiso c.objects [] f).2 ⟨hfn, rfl⟩
    obtain ⟨f', herr, hn', kv, hkv, hm'⟩ :=
      linkPhase_error_of (instantiate fromiso c.objects []) (instantiate fromiso c.objects [])
        ⟨(r.id, nodeFromRecord fromiso r), hentry, f, hf, hfm⟩
    refine ⟨f', ?_, ?_, ?_⟩
    · simp [deserialize_functional, herr, bind, Except.bind]
    · exact ((instantiate_get_none_iff fromiso c.objects [] f').1 hn').1
    · rcases instantiate_entries fromiso c.objects [] kv hkv with hc | ⟨r2, hr2, he2⟩
      · cases hc
      · refine Or.inl ⟨r2, hr2, ?_⟩
        rw [he2] at hm'
        exact hm'
  · have hroot_missing : c.root_id ∉ recIds c.objects := hbad.resolve_left hdang
    have hlink : linkPhase (instantiate fromiso c.objects [])
        (instantiate fromiso c.objects []) = .ok () := by
      apply linkPhase_ok_of
      intro kv hkv f hf hn
      rcases instantiate_entries fromiso c.objects [] kv hkv with hc | ⟨r2, hr2, he2⟩
      · cases hc
      · rw [he2] at hf
        exact hdang ⟨r2, hr2, f, hf, ((instantiate_get_none_iff fromiso c.objects [] f).1 hn).1⟩
    have hrn : dictGet c.root_id (instantiate fromiso c.objects []) = none :=
      (instantiate_get_none_iff fromiso c.objects [] c.root_id).2 ⟨hroot_missing, rfl⟩
    exact ⟨c.root_id, by simp [deserialize_functional, hlink, hrn, bind, Except.bind],
      hroot_missing, Or.inr rfl⟩

/-- C5 (amended): the deserializer performs no duplicate-id detection.
Writing each record into the cache with `dict` assignment means the
record occurring last for a given id silently overwrites any earlier
one, and — provided all friend ids and the root id resolve —
deserialization still succeeds. -/
theorem C5_duplicate_id_silent_overwrite (fromiso : String → D) (c : Container)
    (rs1 rs2 : List FlatRecord) (r : FlatRecord)
    (hsplit : c.objects = rs1 ++ r :: rs2) (hlast : r.id ∉ recIds rs2)
    (hclosed : ∀ r' ∈ c.objects, ∀ f ∈ r'.friends, f ∈ recIds c.objects)
    (hroot : c.root_id ∈ recIds c.objects) :
    ∃ res, deserialize_functional fromiso c = .ok res ∧
      dictGet r.id res.2 = some (nodeFromRecord fromiso r) := by
  obtain ⟨rootP, hok, _⟩ := deserialize_functional_ok fromiso c hclosed hroot
  refine ⟨(rootP, instantiate fromiso c.objects []), hok, ?_⟩
  have hstep : instantiate fromiso c.objects [] =
      instantiate fromiso rs2
        (dictSet r.id (nodeFromRecord fromiso r) (instantiate fromiso rs1 [])) := by
    rw [hsplit, instantiate_append]
    rfl
  rw [hstep, instantiate_get_not_mem fromiso rs2 _ r.id hlast, dictGet_dictSet]
  simp

/-- C9 (amended): `add_friend(A, A)` on a person not already its own
friend DOES introduce a self-loop: afterwards the person's own id is in
its friends list — appended once by the recursive OOP method (the
reverse-edge check then sees the id already present), and twice by the
functional variant (the two appends hit the same aliased list). -/
theorem C9_self_loop_introduced (g : Graph D) (i : String) (p : Person D)
    (hp : dictGet i g = some p) (hnotin : i ∉ p.friends) :
    friendsOf (Person.add_friend g i i) i = p.friends ++ [i] ∧
    friendsOf (add_friend g i i) i = p.friends ++ [i, i] := by
  constructor
  · have hget1 : dictGet i (dictSet i { p with friends := p.friends ++ [i] } g) =
        some { p with friends := p.friends ++ [i] } := by
      rw [dictGet_dictSet]
      simp
    rw [Person.add_friend_reverse_present g i i p { p with friends := p.friends ++ [i] }
      hp hnotin hget1 (by simp)]
    simp [friendsOf, hget1]
  · have he : add_friend g i i = dictSet i { p with friends := p.friends ++ [i, i] } g := by
      simp [add_friend, hp, hnotin]
    rw [he]
    have hg2 : dictGet i (dictSet i { p with friends := p.friends ++ [i, i] } g) =
        some { p with friends := p.friends ++ [i, i] } := by
      rw [dictGet_dictSet]
      simp
    simp [friendsOf, hg2]

/-- C1: round-trip identity of content.  For a well-formed dictionary
built by symmetric add-friend operations (unique ids, consistent keys,
resolvable friend references) whose members are all reachable from the
root, and a faithful timestamp codec, deserializing the serialization
succeeds; the returned root has the root's id, name and birth date, and
every person of the graph is reconstructed with exactly its original
friend-id list (hence the same friend-id set). -/
theorem C1_round_trip (iso : D → String) (fromiso : String → D)
    (hinv : ∀ d, fromiso (iso d) = d) (g : Graph D) (hwf : wfGraph g)
    (rootP : Person D) (hroot : dictGet rootP.id g = some rootP)
    (hconn : ∀ k ∈ keys g, Reaches g rootP.id k) :
    ∃ c res, serialize_functional iso g rootP = .ok c ∧
      deserialize_functional fromiso c = .ok res ∧
      res.1.id = rootP.id ∧ res.1.name = rootP.name ∧ res.1.born_in = rootP.born_in ∧
      ∀ k p, dictGet k g = some p →
        ∃ q, dictGet k res.2 = some q ∧ q.friends = p.friends ∧
          q.id = p.id ∧ q.name = p.name ∧ q.born_in = p.born_in := by
  obtain ⟨st', hok, hids, hnd, hiff, hrecs, _⟩ := collect_summary iso g hwf rootP hroot
  obtain ⟨hndk, hcons, hclosed⟩ := hwf
  have hser : serialize_functional iso g rootP = .ok ⟨rootP.id, st'.objects_to_save⟩ := by
    simp [serialize_functional, hok, Except.map]
  have hndr : (recIds st'.objects_to_save).Nodup := by
    rw [hids]
    exact hnd
  have hkey : ∀ k p, dictGet k g = some p →
      dictGet k (instantiate fromiso st'.objects_to_save []) = some p := by
    intro k p hkp
    have hkk : k ∈ keys g := mem_keys_of_dictGet _ _ _ hkp
    have hkv : k ∈ recIds st'.objects_to_save := by
      rw [hids]
      exact (hiff k).2 (hconn k hkk)
    obtain ⟨r, hr, hrid⟩ := List.mem_map.1 hkv
    obtain ⟨pd, hpd, hre2⟩ := hrecs r hr
    rw [hrid] at hpd
    have hpdp : pd = p := by
      rw [hpd] at hkp
      exact Option.some.inj hkp
    have hget := instantiate_get_mem fromiso st'.objects_to_save [] hndr r hr
    rw [hrid] at hget
    rw [hget, hre2, hpdp]
    have hnode : nodeFromRecord fromiso (toFlatRecord iso p) = p := by
      simp [nodeFromRecord, toFlatRecord, hinv]
    rw [hnode]
  have hcl_c : ∀ r ∈ st'.objects_to_save, ∀ f ∈ r.friends, f ∈ recIds st'.objects_to_save := by
    intro r hr f hf
    obtain ⟨pd, hpd, hre2⟩ := hrecs r hr
    have hfk : f ∈ keys g := by
      refine hclosed (r.id, pd) (dictGet_mem _ _ _ hpd) f ?_
      rw [hre2] at hf
      exact hf
    rw [hids]
    exact (hiff f).2 (hconn f hfk)
  have hroot_c : rootP.id ∈ recIds st'.objects_to_save := by
    rw [hids]
    exact (hiff rootP.id).2 Reaches.refl
  obtain ⟨rootQ, hdes, hgetroot⟩ :=
    deserialize_functional_ok fromiso ⟨rootP.id, st'.objects_to_save⟩ hcl_c hroot_c
  have hrq : rootQ = rootP := by
    have := hkey rootP.id rootP hroot
    rw [this] at hgetroot
    cases hgetroot
    rfl
  refine ⟨⟨rootP.id, st'.objects_to_save⟩,
    (rootQ, instantiate fromiso st'.objects_to_save []), hser, hdes,
    by rw [hrq], by rw [hrq], by rw [hrq], ?_⟩
  intro k p hkp
  exact ⟨p, hkey k p hkp, rfl, rfl, rfl, rfl⟩

/-- C2: the serializer terminates and visits each node once even on
cyclic graphs.  The collector is a total function (its termination is
exactly the well-foundedness argument encoded in its definition: each
new node shrinks the set of unvisited ids); on a well-formed dictionary
containing a length-2 cycle (mutual pair) or a length-3 cycle
(triangle) whose participants are reachable from the root, it returns
an output sequence in which each participant occurs exactly once. -/
theorem C2_cycle_termination (iso : D → String) (g : Graph D) (hwf : wfGraph g)
    (rootP : Person D) (hroot : dictGet rootP.id g = some rootP) (cyc : List String)
    (hcyc : (∃ a b, mutualPair g a b ∧ cyc = [a, b]) ∨
      (∃ a b c0, triangleCycle g a b c0 ∧ cyc = [a, b, c0]))
    (hreach : ∀ x ∈ cyc, Reaches g rootP.id x) :
    ∃ cont, serialize_functional iso g rootP = .ok cont ∧
      ∀ x ∈ cyc, (recIds cont.objects).count x = 1 := by
  obtain ⟨st', hok, hids, hnd, hiff, _, _⟩ := collect_summary iso g hwf rootP hroot
  refine ⟨⟨rootP.id, st'.objects_to_save⟩, by simp [serialize_functional, hok, Except.map], ?_⟩
  intro x hx
  have hmem : x ∈ recIds st'.objects_to_save := by
    rw [hids]
    exact (hiff x).2 (hreach x hx)
  exact List.count_eq_one_of_mem (by rw [hids]; exact hnd) hmem

/-- C6: count invariant.  The serialized container has exactly one
record per node reachable from the root: its id column is
duplicate-free, its members are exactly the reachable ids, and its
length therefore equals that of any duplicate-free enumeration of the
reachable ids. -/
theorem C6_count_invariant (iso : D → String) (g : Graph D) (hwf : wfGraph g)
    (rootP : Person D) (hroot : dictGet rootP.id g = some rootP) :
    ∃ c, serialize_functional iso g rootP = .ok c ∧
      (recIds c.objects).Nodup ∧
      (∀ x, x ∈ recIds c.objects ↔ Reaches g rootP.id x) ∧
      ∀ l : List String, l.Nodup → (∀ x, x ∈ l ↔ Reaches g rootP.id x) →
        c.objects.length = l.length := by
  obtain ⟨st', hok, hids, hnd, hiff, _, _⟩ := collect_summary iso g hwf rootP hroot
  refine ⟨⟨rootP.id, st'.objects_to_save⟩, by simp [serialize_functional, hok, Except.map],
    by rw [hids]; exact hnd, ?_, ?_⟩
  · intro x
    rw [hids]
    exact hiff x
  · intro l hl hlx
    have hperm : (recIds st'.objects_to_save).Perm l := by
      refine (List.perm_ext_iff_of_nodup (by rw [hids]; exact hnd) hl).2 ?_
      intro a
      rw [hids]
      exact (hiff a).trans (hlx a).symm
    have : (recIds st'.objects_to_save).length = l.length := hperm.length_eq
    simpa [recIds] using this

/-- C7: the OOP serializer's output lists every node reachable from the
root exactly once, the root's record first, in the deterministic
first-visit depth-first pre-order prescribed by the specification
(realized by `specVisitOrder`, which recurses into friends in
friend-list order). -/
theorem C7_preorder_output (iso : D → String) (g : Graph D) (hwf : wfGraph g)
    (rootP : Person D) (hroot : dictGet rootP.id g = some rootP) :
    ∃ recs, PersonSerializer.serialize iso g rootP = .ok recs ∧
      recs.head? = some (toFlatRecord iso rootP) ∧
      (recIds recs).Nodup ∧
      (∀ x, x ∈ recIds recs ↔ Reaches g rootP.id x) ∧
      recIds recs = specVisitOrder g [rootP.id] [] := by
  obtain ⟨st', hok, hids, hnd, hiff, hrecs, hspec⟩ := collect_summary iso g hwf rootP hroot
  refine ⟨st'.objects_to_save, by simp [PersonSerializer.serialize, hok, Except.map],
    ?_, by rw [hids]; exact hnd, (fun x => by rw [hids]; exact hiff x),
    by rw [hids]; exact hspec⟩
  have hhead : specVisitOrder g [rootP.id] [] =
      rootP.id :: specVisitOrder g (rootP.friends ++ []) ([] ++ [rootP.id]) :=
    specVisitOrder_cons_new g rootP.id [] [] rootP (by simp) hroot
  cases hobj : st'.objects_to_save with
  | nil =>
      exfalso
      have : recIds ([] : List FlatRecord) = st'.visited := by
        rw [← hobj]
        exact hids
      rw [hspec, hhead] at this
      simp [recIds] at this
  | cons r0 tail =>
      have hchain : recIds (r0 :: tail) = st'.visited := by
        rw [← hobj]
        exact hids
      rw [hspec, hhead] at hchain
      simp only [recIds, List.map_cons] at hchain
      have hr0id : r0.id = rootP.id := (List.cons.injEq _ _ _ _ ▸ hchain).1
      have hr0mem : r0 ∈ st'.objects_to_save := by
        rw [hobj]
        exact List.mem_cons_self r0 tail
      obtain ⟨pd, hpd, hre2⟩ := hrecs r0 hr0mem
      rw [hr0id, hroot] at hpd
      cases hpd
      rw [hre2]
      rfl

/-- C8 (amended): for the functional deserializer, whose container
carries an explicit `root_id`, permuting a duplicate-free, closed record
sequence changes neither the returned root person nor the id-to-person
mapping (read pointwise).  The positional-root OOP deserializers do not
enjoy this property (see the counterexample): their root is whatever
record happens to come first. -/
theorem C8_permutation_invariance (fromiso : String → D) (rid : String)
    (l l' : List FlatRecord) (hperm : l.Perm l') (hnd : (recIds l).Nodup)
    (hclosed : ∀ r ∈ l, ∀ f ∈ r.friends, f ∈ recIds l) (hroot : rid ∈ recIds l) :
    ∃ p m m', deserialize_functional fromiso ⟨rid, l⟩ = .ok (p, m) ∧
      deserialize_functional fromiso ⟨rid, l'⟩ = .ok (p, m') ∧
      ∀ k, dictGet k m = dictGet k m' := by
  have hids' : (recIds l).Perm (recIds l') := hperm.map _
  have hclosed' : ∀ r ∈ l', ∀ f ∈ r.friends, f ∈ recIds l' :=
    fun r hr f hf => hids'.mem_iff.1 (hclosed r (hperm.mem_iff.2 hr) f hf)
  have hroot' : rid ∈ recIds l' := hids'.mem_iff.1 hroot
  obtain ⟨p1, hok1, hget1⟩ := deserialize_functional_ok fromiso ⟨rid, l⟩ hclosed hroot
  obtain ⟨p2, hok2, hget2⟩ := deserialize_functional_ok fromiso ⟨rid, l'⟩ hclosed' hroot'
  have hpt : ∀ k, dictGet k (instantiate fromiso l []) = dictGet k (instantiate fromiso l' []) :=
    instantiate_perm_pointwise fromiso l l' hperm hnd
  have hp12 : p1 = p2 := by
    have := hpt rid
    rw [hget1, hget2] at this
    cases this
    rfl
  exact ⟨p1, instantiate fromiso l [], instantiate fromiso l' [], hok1,
    by rw [hp12]; exact hok2, hpt⟩

/-- C10: `get_friends` returns a copy.  For a valid internal friends
reference, the reference handed out is a fresh one (not the internal
one), its contents initially agree with the internal list, and any
in-place mutation through the returned reference leaves the internal
list — and therefore the flat record any later serialization builds
from it — unchanged. -/
theorem C10_get_friends_returns_copy (s : ListStore) (fref : Nat)
    (h : fref < s.cells.length) :
    (get_friends s fref).2 ≠ fref ∧
    readList (get_friends s fref).1 (get_friends s fref).2 = readList s fref ∧
    (∀ v, readList (writeList (get_friends s fref).1 (get_friends s fref).2 v) fref =
      readList s fref) ∧
    ∀ (v : List String) (iso : D → String) (i n : String) (d : D),
      toFlatRecord iso
        ⟨i, n, d, readList (writeList (get_friends s fref).1 (get_friends s fref).2 v) fref⟩ =
      toFlatRecord iso ⟨i, n, d, readList s fref⟩ := by
  have hwrite : ∀ v, readList (writeList (get_friends s fref).1 (get_friends s fref).2 v) fref =
      readList s fref := by
    intro v
    show (((s.cells ++ [readList s fref]).set s.cells.length v).getD fref []) = readList s fref
    rw [List.getD_eq_getElem?_getD, List.getElem?_set_ne (Nat.ne_of_gt h),
      List.getElem?_append]
    simp [h, readList, List.getD_eq_getElem?_getD]
  refine ⟨Nat.ne_of_gt h, ?_, hwrite, ?_⟩
  · show ((s.cells ++ [readList s fref]).getD s.cells.length []) = readList s fref
    rw [List.getD_eq_getElem?_getD, List.getElem?_concat_length]
    rfl
  · intro v iso i n d
    rw [hwrite v]

/-- C9 counterexample: `add_friend("a", "a")` on the single-person graph
leaves "a" a member of its own friends list — the claim that no
self-loop is introduced fails on this input. -/
theorem C9_counterexample :
    "a" ∈ friendsOf (Person.add_friend gSingle "a" "a") "a" := by
  rw [Person.add_friend_reverse_present gSingle "a" "a"
    ⟨"a", "Ivan", "1990-05-15T00:00:00", []⟩ ⟨"a", "Ivan", "1990-05-15T00:00:00", ["a"]⟩
    (by decide) (by decide) (by decide) (by decide)]
  decide

/-- C5 counterexample: on a container with two records sharing id "a"
the functional deserializer does not fail; it silently returns the graph
built from the later record (name "y"). -/
theorem C5_counterexample :
    ¬ (recIds dupContainer.objects).Nodup ∧
    deserialize_functional strCodec dupContainer =
      .ok (⟨"a", "y", "d", []⟩, [("a", ⟨"a", "y", "d", []⟩)]) :=
  ⟨by decide, rfl⟩

/-- C8 counterexample: the OOP serializer emits the mutual pair as
`[recA, recB]`; the positional-root OOP deserializer returns Ivan for
that order but Maria for the permuted order, so deserialization is not
permutation invariant. -/
theorem C8_counterexample :
    PersonSerializer.serialize strCodec gPair pPairRoot = .ok [recA, recB] ∧
    [recA, recB].Perm [recB, recA] ∧
    PersonSerializer.deserialize strCodec [recA, recB] =
      .ok ⟨"a", "Ivan", "1990-05-15T00:00:00", ["b"]⟩ ∧
    PersonSerializer.deserialize strCodec [recB, recA] =
      .ok ⟨"b", "Maria", "1992-08-22T00:00:00", ["a"]⟩ ∧
    PersonSerializer.deserialize strCodec [recA, recB] ≠
      PersonSerializer.deserialize strCodec [recB, recA] := by
  refine ⟨?_, List.Perm.swap recB recA [], rfl, rfl, ?_⟩
  · simp [PersonSerializer.serialize, collectObjects, gPair, pPairRoot, dictGet,
      toFlatRecord, recA, recB, strCodec, Except.map]
  · intro hcontra
    rw [show PersonSerializer.deserialize strCodec [recA, recB] =
        .ok ⟨"a", "Ivan", "1990-05-15T00:00:00", ["b"]⟩ from rfl,
      show PersonSerializer.deserialize strCodec [recB, recA] =
        .ok ⟨"b", "Maria", "1992-08-22T00:00:00", ["a"]⟩ from rfl] at hcontra
    simp at hcontra

/-- C1 witness: round trip checked on the concrete triangle graph. -/
theorem C1_witness :
    (∀ d : String, strCodec (strCodec d) = d) ∧ wfGraph gTriangle ∧
    dictGet pIvan.id gTriangle = some pIvan ∧
    (∀ k ∈ keys gTriangle, Reaches gTriangle pIvan.id k) ∧
    (∃ c res, serialize_functional strCodec gTriangle pIvan = .ok c ∧
      deserialize_functional strCodec c = .ok res ∧
      res.1.id = pIvan.id ∧ res.1.name = pIvan.name ∧ res.1.born_in = pIvan.born_in ∧
      ∀ k p, dictGet k gTriangle = some p →
        ∃ q, dictGet k res.2 = some q ∧ q.friends = p.friends ∧
          q.id = p.id ∧ q.name = p.name ∧ q.born_in = p.born_in) := by
  have hconn : ∀ k ∈ keys gTriangle, Reaches gTriangle pIvan.id k := by
    intro k hk
    have hk3 : k = "a" ∨ k = "b" ∨ k = "c" := by
      simpa [keys, gTriangle] using hk
    rcases hk3 with rfl | rfl | rfl
    · exact Reaches.refl
    · exact @Reaches.step String gTriangle pIvan.id pIvan.id "b" pIvan
        Reaches.refl (by decide) (by decide)
    · exact @Reaches.step String gTriangle pIvan.id pIvan.id "c" pIvan
        Reaches.refl (by decide) (by decide)
  exact ⟨fun d => rfl, by decide, by decide, hconn,
    C1_round_trip strCodec strCodec (fun d => rfl) gTriangle (by decide) pIvan (by decide) hconn⟩

/-- C2 witness: exactly-once collection checked on the concrete triangle
cycle. -/
theorem C2_witness :
    wfGraph gTriangle ∧ dictGet pIvan.id gTriangle = some pIvan ∧
    ((∃ a b, mutualPair gTriangle a b ∧ (["a", "b", "c"] : List String) = [a, b]) ∨
      (∃ a b c0, triangleCycle gTriangle a b c0 ∧ (["a", "b", "c"] : List String) = [a, b, c0])) ∧
    (∀ x ∈ (["a", "b", "c"] : List String), Reaches gTriangle pIvan.id x) ∧
    (∃ cont, serialize_functional strCodec gTriangle pIvan = .ok cont ∧
      ∀ x ∈ (["a", "b", "c"] : List String), (recIds cont.objects).count x = 1) := by
  have htri : triangleCycle gTriangle "a" "b" "c" :=
    ⟨by decide, by decide, by decide, pIvan,
      ⟨"b", "Maria", "1992-08-22T00:00:00", ["a", "c"]⟩,
      ⟨"c", "Alexey", "1988-03-10T00:00:00", ["a", "b"]⟩,
      by decide, by decide, by decide, by decide, by decide, by decide⟩
  have hreach : ∀ x ∈ (["a", "b", "c"] : List String), Reaches gTriangle pIvan.id x := by
    intro x hx
    have hx3 : x = "a" ∨ x = "b" ∨ x = "c" := by simpa using hx
    rcases hx3 with rfl | rfl | rfl
    · exact Reaches.refl
    · exact @Reaches.step String gTriangle pIvan.id pIvan.id "b" pIvan
        Reaches.refl (by decide) (by decide)
    · exact @Reaches.step String gTriangle pIvan.id pIvan.id "c" pIvan
        Reaches.refl (by decide) (by decide)
  exact ⟨by decide, by decide, Or.inr ⟨"a", "b", "c", htri, rfl⟩, hreach,
    C2_cycle_termination strCodec gTriangle (by decide) pIvan (by decide)
      ["a", "b", "c"] (Or.inr ⟨"a", "b", "c", htri, rfl⟩) hreach⟩

/-- C3 witness: symmetry and idempotence checked on two concrete
friendless persons. -/
theorem C3_witness :
    ("a" : String) ≠ "b" ∧
    dictGet "a" gTwo = some ⟨"a", "Ivan", "d1", []⟩ ∧
    dictGet "b" gTwo = some ⟨"b", "Maria", "d2", []⟩ ∧
    (("b" ∈ (⟨"a", "Ivan", "d1", []⟩ : Person String).friends) →
      "a" ∈ (⟨"b", "Maria", "d2", []⟩ : Person String).friends) ∧
    (("b" ∈ friendsOf (Person.add_friend gTwo "a" "b") "a" ∧
      "a" ∈ friendsOf (Person.add_friend gTwo "a" "b") "b" ∧
      Person.add_friend (Person.add_friend gTwo "a" "b") "a" "b" =
        Person.add_friend gTwo "a" "b") ∧
     ("b" ∈ friendsOf (add_friend gTwo "a" "b") "a" ∧
      "a" ∈ friendsOf (add_friend gTwo "a" "b") "b" ∧
      add_friend (add_friend gTwo "a" "b") "a" "b" = add_friend gTwo "a" "b")) :=
  ⟨by decide, by decide, by decide, by decide,
    C3_add_friend_symmetry_idempotence gTwo "a" "b" (by decide)
      ⟨"a", "Ivan", "d1", []⟩ ⟨"b", "Maria", "d2", []⟩ (by decide) (by decide) (by decide)⟩

/-- C4 witness: the dangling reference "zz" makes the deserializer fail
with that id. -/
theorem C4_witness :
    (recIds danglingContainer.objects).Nodup ∧
    ((∃ r ∈ danglingContainer.objects, ∃ f ∈ r.friends,
        f ∉ recIds danglingContainer.objects) ∨
      danglingContainer.root_id ∉ recIds danglingContainer.objects) ∧
    ∃ missing, deserialize_functional strCodec danglingContainer = .error missing ∧
      missing ∉ recIds danglingContainer.objects ∧
      ((∃ r ∈ danglingContainer.objects, missing ∈ r.friends) ∨
        missing = danglingContainer.root_id) :=
  ⟨by decide, by decide,
    C4_dangling_reference_error strCodec danglingContainer (by decide) (by decide)⟩

/-- C5 witness: the duplicated id "a" resolves to the later record. -/
theorem C5_witness :
    dupContainer.objects = [⟨"a", "x", "d", []⟩] ++ (⟨"a", "y", "d", []⟩ : FlatRecord) :: [] ∧
    (⟨"a", "y", "d", []⟩ : FlatRecord).id ∉ recIds ([] : List FlatRecord) ∧
    (∀ r' ∈ dupContainer.objects, ∀ f ∈ r'.friends, f ∈ recIds dupContainer.objects) ∧
    dupContainer.root_id ∈ recIds dupContainer.objects ∧
    ∃ res, deserialize_functional strCodec dupContainer = .ok res ∧
      dictGet (⟨"a", "y", "d", []⟩ : FlatRecord).id res.2 =
        some (nodeFromRecord strCodec ⟨"a", "y", "d", []⟩) :=
  ⟨rfl, by decide, by decide, by decide,
    C5_duplicate_id_silent_overwrite strCodec dupContainer [⟨"a", "x", "d", []⟩] []
      ⟨"a", "y", "d", []⟩ rfl (by decide) (by decide) (by decide)⟩

/-- C6 witness: count invariant checked on the concrete triangle. -/
theorem C6_witness :
    wfGraph gTriangle ∧ dictGet pIvan.id gTriangle = some pIvan ∧
    (∃ c, serialize_functional strCodec gTriangle pIvan = .ok c ∧
      (recIds c.objects).Nodup ∧
      (∀ x, x ∈ recIds c.objects ↔ Reaches gTriangle pIvan.id x) ∧
      ∀ l : List String, l.Nodup → (∀ x, x ∈ l ↔ Reaches gTriangle pIvan.id x) →
        c.objects.length = l.length) :=
  ⟨by decide, by decide, C6_count_invariant strCodec gTriangle (by decide) pIvan (by decide)⟩

/-- C7 witness: pre-order output checked on the concrete triangle. -/
theorem C7_witness :
    wfGraph gTriangle ∧ dictGet pIvan.id gTriangle = some pIvan ∧
    (∃ recs, PersonSerializer.serialize strCodec gTriangle pIvan = .ok recs ∧
      recs.head? = some (toFlatRecord strCodec pIvan) ∧
      (recIds recs).Nodup ∧
      (∀ x, x ∈ recIds recs ↔ Reaches gTriangle pIvan.id x) ∧
      recIds recs = specVisitOrder gTriangle [pIvan.id] []) :=
  ⟨by decide, by decide, C7_preorder_output strCodec gTriangle (by decide) pIvan (by decide)⟩

/-- C8 witness: permutation invariance of the functional deserializer on
the concrete mutual pair. -/
theorem C8_witness :
    ([recA, recB] : List FlatRecord).Perm [recB, recA] ∧
    (recIds [recA, recB]).Nodup ∧
    (∀ r ∈ ([recA, recB] : List FlatRecord), ∀ f ∈ r.friends, f ∈ recIds [recA, recB]) ∧
    ("a" : String) ∈ recIds [recA, recB] ∧
    ∃ p m m', deserialize_functional strCodec ⟨"a", [recA, recB]⟩ = .ok (p, m) ∧
      deserialize_functional strCodec ⟨"a", [recB, recA]⟩ = .ok (p, m') ∧
      ∀ k, dictGet k m = dictGet k m' :=
  ⟨List.Perm.swap recB recA [], by decide, by decide, by decide,
    C8_permutation_invariance strCodec "a" [recA, recB] [recB, recA]
      (List.Perm.swap recB recA []) (by decide) (by decide) (by decide)⟩

/-- C9 witness: the self-loop appended once (OOP) and twice
(functional) on the concrete single-person graph. -/
theorem C9_witness :
    dictGet "a" gSingle = some ⟨"a", "Ivan", "1990-05-15T00:00:00", []⟩ ∧
    ("a" : String) ∉ (⟨"a", "Ivan", "1990-05-15T00:00:00", []⟩ : Person String).friends ∧
    (friendsOf (Person.add_friend gSingle "a" "a") "a" =
      (⟨"a", "Ivan", "1990-05-15T00:00:00", []⟩ : Person String).friends ++ ["a"] ∧
     friendsOf (add_friend gSingle "a" "a") "a" =
      (⟨"a", "Ivan", "1990-05-15T00:00:00", []⟩ : Person String).friends ++ ["a", "a"]) :=
  ⟨by decide, by decide,
    C9_self_loop_introduced gSingle "a" ⟨"a", "Ivan", "1990-05-15T00:00:00", []⟩
      (by decide) (by decide)⟩

/-- C10 witness: the copy semantics checked on the concrete one-cell
store. -/
theorem C10_witness :
    (0 : Nat) < storeOne.cells.length ∧
    ((get_friends storeOne 0).2 ≠ 0 ∧
     readList (get_friends storeOne 0).1 (get_friends storeOne 0).2 = readList storeOne 0 ∧
     (∀ v, readList (writeList (get_friends storeOne 0).1 (get_friends storeOne 0).2 v) 0 =
       readList storeOne 0) ∧
     ∀ (v : List String) (iso : String → String) (i n : String) (d : String),
       toFlatRecord iso
         ⟨i, n, d, readList (writeList (get_friends storeOne 0).1 (get_friends storeOne 0).2 v) 0⟩ =
       toFlatRecord iso ⟨i, n, d, readList storeOne 0⟩) :=
  ⟨by decide, @C10_get_friends_returns_copy String storeOne 0 (by decide)⟩

end Lab3
